import Mathlib

/-!
Verification development for the haystack-cookbook repository.

The notebooks under `src/notebooks/` wire an external pipeline execution
engine (imported from `haystack_experimental.core.pipeline.pipeline`) with
breakpoint/resume support.  The engine itself is not part of the repository,
so, following the repository specification (spec.md §2-§4, which specifies
the engine as the reimplementable core), the engine is modelled here from
the spec's words.  The keyword-extraction notebook's parse-and-display step
is embedded from its source directly.
-/

namespace PipelineModel

/-- Lookup in an association list keyed by strings (first match wins,
mirroring a Python dict in which each key occurs once). -/
def alookup {α : Type} (l : List (String × α)) (k : String) : Option α :=
  match l with
  | [] => none
  | (k', v) :: rest => if k' = k then some v else alookup rest k

/-- Remove every binding for key `k`. -/
def aerase {α : Type} (l : List (String × α)) (k : String) : List (String × α) :=
  l.filter (fun e => decide (e.1 ≠ k))

/-- Set the binding of key `k` to `v` (Python dict assignment). -/
def aset {α : Type} (l : List (String × α)) (k : String) (v : α) : List (String × α) :=
  (k, v) :: aerase l k

theorem alookup_aerase {α : Type} (l : List (String × α)) (k k' : String) :
    alookup (aerase l k) k' = if k = k' then none else alookup l k' := by
  induction l with
  | nil => simp [aerase, alookup]
  | cons e rest ih =>
    by_cases h1 : e.1 = k
    · by_cases h2 : k = k' <;>
        simp_all [aerase, alookup, List.filter]
    · by_cases h2 : e.1 = k' <;> by_cases h3 : k = k' <;>
        simp_all [aerase, alookup, List.filter]

theorem alookup_aset {α : Type} (l : List (String × α)) (k k' : String) (v : α) :
    alookup (aset l k v) k' = if k = k' then some v else alookup l k' := by
  by_cases h : k = k' <;> simp [aset, alookup, alookup_aerase, h]

/-- Modelled from the spec: a Component (spec §3) is an opaque named
processing unit with declared required input ports and a run operation that
is a pure function of its inputs; a raising invocation (spec §4.2 Failure)
is modelled by `run` returning `none`.  The component's name is kept in the
registry (`Graph.components`), not here. -/
structure Comp (V : Type) where
  required : List String
  run : List (String × V) → Option (List (String × V))

/-- Modelled from the spec: the Component Registry / Pipeline Graph
(spec §2, §3): named components in registration order, plus directed edges
from `(source component, source port)` to `(target component, target port)`. -/
structure Graph (V : Type) where
  components : List (String × Comp V)
  edges : List ((String × String) × (String × String))

/-- Pending-input mapping: component name to a mapping of input port name to
value (spec §3 Run State). -/
abbrev Pending (V : Type) := List (String × List (String × V))

/-- Modelled from the spec: a Persisted State Record (spec §3, §4.5):
matched component name, visit-count mapping, pending-input mapping and
original input mapping at halt time.  The creation timestamp and schema
version are identity/encoding metadata with no behavioural content in the
model, and values are always encodable here, so the unserializable-value
marker of §4.5 never arises. -/
structure StateRecord (V : Type) where
  component : String
  visits : List (String × Nat)
  pending : Pending V
  original : Pending V
  deriving DecidableEq, Repr

/-- Modelled from the spec: the Run State of one execution (spec §3):
pending inputs, visit counts and the original top-level inputs, plus the
accumulated final outputs (spec §4.2 Termination).  `trace` (names of the
completed component invocations in order), `saved` (log of persisted
records) and `bpEvals` (number of breakpoint evaluations performed) are
ghost instrumentation used only to state theorems; they are never read by
the engine. -/
structure RunState (V : Type) where
  pending : Pending V
  visits : List (String × Nat)
  original : Pending V
  outputs : Pending V
  trace : List String
  saved : List (StateRecord V)
  bpEvals : Nat
  deriving DecidableEq, Repr

/-- Visit count of a component, zero when absent (spec §4.2: visit counts
start at zero for all components). -/
def getV (vs : List (String × Nat)) (c : String) : Nat :=
  (alookup vs c).getD 0

/-- Modelled from the spec: `increment(componentName)` of the Visit Counter
(spec §4.3) increases that component's visit count by exactly one. -/
def incV (vs : List (String × Nat)) (c : String) : List (String × Nat) :=
  aset vs c (getV vs c + 1)

/-- Whether component `c` has a pending-input entry carrying port `q`. -/
def portP (pending : Pending V) (c q : String) : Bool :=
  match alookup pending c with
  | none => false
  | some entry => (alookup entry q).isSome

/-- Whether component `c` has a pending-input entry at all. -/
def entryP (pending : Pending V) (c : String) : Bool :=
  (alookup pending c).isSome

/-- Modelled from the spec: a component is Runnable when it has received
inputs and all of its declared required input ports have values present in
pending-inputs (spec §4.2 Scheduling, Glossary "Runnable"). -/
def runnableB (pending : Pending V) (c : Comp V) (n : String) : Bool :=
  match alookup pending n with
  | none => false
  | some entry => c.required.all (fun p => (alookup entry p).isSome)

/-- Modelled from the spec: deterministic selection of the next component to
invoke: the first runnable component in registration order (spec §4.2: "a
stable topological order keyed by registration order is sufficient"). -/
def selectRunnable (g : Graph V) (pending : Pending V) : Option (String × Comp V) :=
  g.components.find? (fun nc => runnableB pending nc.2 nc.1)

/-- Place value `v` on input port `dstPort` of component `dst`, creating the
pending entry when absent. -/
def addPort (pending : Pending V) (dst dstPort : String) (v : V) : Pending V :=
  let entry := (alookup pending dst).getD []
  aset pending dst (aset entry dstPort v)

/-- Distribute one produced output value along every edge connected to
output port `port` of component `src` (spec §4.2: "distributes each produced
output value to every connected downstream input port"). -/
def distOne (g : Graph V) (src port : String) (v : V) (pending : Pending V) : Pending V :=
  g.edges.foldl
    (fun pd e => if e.1 = (src, port) then addPort pd e.2.1 e.2.2 v else pd)
    pending

/-- Distribute all produced outputs of `src` along the graph's edges. -/
def distribute (g : Graph V) (src : String) (outs : List (String × V))
    (pending : Pending V) : Pending V :=
  outs.foldl (fun pd pv => distOne g src pv.1 pv.2 pd) pending

/-- Whether a component has any outgoing edge. -/
def hasOutEdges (g : Graph V) (src : String) : Bool :=
  g.edges.any (fun e => decide (e.1.1 = src))

/-- Modelled from the spec: the effect of one successful component
invocation (spec §2 control flow): its consumed inputs are removed, each
produced output is routed along the connected edges, the outputs of a
component with no outgoing edges are collected for the caller (spec §4.2
Termination), and the Visit Counter increments after the output has been
distributed (spec §4.3).  The ghost trace records the completed
invocation. -/
def applyStep (g : Graph V) (n : String) (outs : List (String × V))
    (st : RunState V) : RunState V :=
  { st with
    pending := distribute g n outs (aerase st.pending n)
    visits := incV st.visits n
    trace := st.trace ++ [n]
    outputs := if hasOutEdges g n then st.outputs else st.outputs ++ [(n, outs)] }

/-- A breakpoint: a component name with a target visit count, or `none` as
the wildcard sentinel matching any visit (spec §3 Breakpoint). -/
abbrev Bp := String × Option Nat

/-- Modelled from the spec: the Breakpoint Evaluator match (spec §4.4):
matches when the (component name, visit count) pair is registered or a
wildcard entry for the component is registered. -/
def bpMatch (bps : List Bp) (n : String) (v : Nat) : Bool :=
  bps.any (fun b => decide (b.1 = n) && (decide (b.2 = none) || decide (b.2 = some v)))

/-- Modelled from the spec: the State Serializer's `save` (spec §4.5)
capturing the matched component name and the current visit-count,
pending-input and original-input mappings into a record. -/
def recordOf (st : RunState V) (n : String) : StateRecord V :=
  { component := n
    visits := st.visits
    pending := st.pending
    original := st.original }

/-- Outcome of a run (spec §6, §7): completion with final outputs, the
distinguishable breakpoint-halt signal carrying the persisted record, a
component-execution error naming the raising component, or fuel
exhaustion (the model's explicit iteration bound; spec §3 notes a run of a
cyclic graph need not terminate without such a bound). -/
inductive RunResult (V : Type) where
  | completed (outputs : Pending V)
  | breakpointHalt (record : StateRecord V)
  | componentError (component : String)
  | outOfFuel
  deriving DecidableEq, Repr

/-- Modelled from the spec: the Execution Engine's scheduling loop
(spec §2 control flow, §4.2): repeatedly select the first runnable
component; evaluate the breakpoints once for the selected invocation; on a
match, persist a record and halt with the distinguishable signal; otherwise
invoke the component, aborting the run when it raises, and otherwise
distribute its outputs and continue.  When no component is runnable the run
completes with the accumulated final outputs.  `fuel` bounds the number of
iterations; it also returns the final (instrumented) state. -/
def loopFull : Nat → Graph V → List Bp → RunState V → RunResult V × RunState V
  | 0, _, _, st => (.outOfFuel, st)
  | fuel + 1, g, bps, st =>
    match selectRunnable g st.pending with
    | none => (.completed st.outputs, st)
    | some (n, c) =>
      let st1 : RunState V := { st with bpEvals := st.bpEvals + 1 }
      if bpMatch bps n (getV st.visits n) then
        let r := recordOf st n
        (.breakpointHalt r, { st1 with saved := st1.saved ++ [r] })
      else
        match c.run ((alookup st.pending n).getD []) with
        | none => (.componentError n, st1)
        | some outs => loopFull fuel g bps (applyStep g n outs st1)

/-- Modelled from the spec: the Run State created at run start from the
caller-supplied inputs (spec §4.2: pending inputs seeded from
`initialInputs`, visit counts at zero, the exact `initialInputs` snapshot
kept for inclusion in any future record). -/
def initState (data : Pending V) : RunState V :=
  { pending := data
    visits := []
    original := data
    outputs := []
    trace := []
    saved := []
    bpEvals := 0 }

/-- Modelled from the spec: `load` / seeding a resumed Run State from a
Persisted State Record (spec §4.2: the engine seeds pending-inputs and
visit-counts from it; §4.5). -/
def stateOfRecord (r : StateRecord V) : RunState V :=
  { pending := r.pending
    visits := r.visits
    original := r.original
    outputs := []
    trace := []
    saved := []
    bpEvals := 0 }

/-- Modelled from the spec: `run(initialInputs, breakpoints, resumeState)`
(spec §4.2).  When `resumeState` is provided the engine seeds the state from
the record and ignores `breakpoints` (and `data`) for the remainder of the
run; otherwise it starts from the caller-supplied inputs. -/
def run (g : Graph V) (data : Pending V) (bps : List Bp)
    (resume : Option (StateRecord V)) (fuel : Nat) : RunResult V × RunState V :=
  match resume with
  | some r => loopFull fuel g [] (stateOfRecord r)
  | none => loopFull fuel g bps (initState data)

/-- Whether a run result is the breakpoint-halt signal. -/
def isHalt : RunResult V → Bool
  | .breakpointHalt _ => true
  | _ => false

/-- One deterministic engine step with no breakpoints: `none` when no
component is runnable or the selected component raises. -/
def stepOnce (g : Graph V) (st : RunState V) : Option (RunState V) :=
  match selectRunnable g st.pending with
  | none => none
  | some (n, c) =>
    match c.run ((alookup st.pending n).getD []) with
    | none => none
    | some outs => some (applyStep g n outs { st with bpEvals := st.bpEvals + 1 })

/-- Iterate `stepOnce` for `k` steps, idling once no step is possible. -/
def iter (g : Graph V) : Nat → RunState V → RunState V
  | 0, st => st
  | k + 1, st =>
    match stepOnce g st with
    | none => st
    | some st' => iter g k st'

theorem bpMatch_nil (n : String) (v : Nat) : bpMatch [] n v = false := rfl

/-- The state produced by the non-halting bookkeeping of one loop
iteration (the breakpoint evaluation was performed). -/
def bumpEvals (st : RunState V) : RunState V :=
  { st with bpEvals := st.bpEvals + 1 }

theorem loopFull_succ_none {g : Graph V} {st : RunState V} {bps : List Bp} {fuel : Nat}
    (h : selectRunnable g st.pending = none) :
    loopFull (fuel + 1) g bps st = (.completed st.outputs, st) := by
  simp only [loopFull, h]

theorem loopFull_succ_halt {g : Graph V} {st : RunState V} {bps : List Bp} {fuel : Nat}
    {n : String} {c : Comp V}
    (hsel : selectRunnable g st.pending = some (n, c))
    (hbp : bpMatch bps n (getV st.visits n) = true) :
    loopFull (fuel + 1) g bps st =
      (.breakpointHalt (recordOf st n),
        { bumpEvals st with saved := st.saved ++ [recordOf st n] }) := by
  simp only [loopFull, hsel, hbp, if_true, bumpEvals]

theorem loopFull_succ_err {g : Graph V} {st : RunState V} {bps : List Bp} {fuel : Nat}
    {n : String} {c : Comp V}
    (hsel : selectRunnable g st.pending = some (n, c))
    (hbp : bpMatch bps n (getV st.visits n) = false)
    (hrun : c.run ((alookup st.pending n).getD []) = none) :
    loopFull (fuel + 1) g bps st = (.componentError n, bumpEvals st) := by
  simp only [loopFull, hsel, hbp, Bool.false_eq_true, if_false, hrun, bumpEvals]

theorem loopFull_succ_step {g : Graph V} {st : RunState V} {bps : List Bp} {fuel : Nat}
    {n : String} {c : Comp V} {outs : List (String × V)}
    (hsel : selectRunnable g st.pending = some (n, c))
    (hbp : bpMatch bps n (getV st.visits n) = false)
    (hrun : c.run ((alookup st.pending n).getD []) = some outs) :
    loopFull (fuel + 1) g bps st = loopFull fuel g bps (applyStep g n outs (bumpEvals st)) := by
  simp only [loopFull, hsel, hbp, Bool.false_eq_true, if_false, hrun, bumpEvals]

/-- With an empty breakpoint set the scheduling loop never produces the
breakpoint-halt signal. -/
theorem loop_no_halt (g : Graph V) (fuel : Nat) (st : RunState V) :
    isHalt (loopFull fuel g [] st).1 = false := by
  induction fuel generalizing st with
  | zero => rfl
  | succ fuel ih =>
    rcases hsel : selectRunnable g st.pending with _ | ⟨n, c⟩
    · rw [loopFull_succ_none hsel]; rfl
    · rcases hrun : c.run ((alookup st.pending n).getD []) with _ | outs
      · rw [loopFull_succ_err hsel (bpMatch_nil n _) hrun]; rfl
      · rw [loopFull_succ_step hsel (bpMatch_nil n _) hrun]
        exact ih _

/-- C3: for every run started with a resume state, the engine seeds the run
state from the record and runs with the breakpoint set ignored, so no
breakpoint ever halts the resumed run, whatever breakpoint set was
passed. -/
theorem resume_ignores_breakpoints (g : Graph V) (data : Pending V)
    (bps : List Bp) (r : StateRecord V) (fuel : Nat) :
    run g data bps (some r) fuel = loopFull fuel g [] (stateOfRecord r) ∧
    isHalt (run g data bps (some r) fuel).1 = false :=
  ⟨rfl, loop_no_halt g fuel (stateOfRecord r)⟩

/-- C9: when a resume state is supplied, the run's outcome is independent of
the `data` argument: resuming from the same record with the original inputs
and with any other input mapping (in particular the empty one) gives equal
results, because the engine takes all inputs from the persisted record. -/
theorem resume_ignores_data (g : Graph V) (data data' : Pending V)
    (bps bps' : List Bp) (r : StateRecord V) (fuel : Nat) :
    run g data bps (some r) fuel = run g data' bps' (some r) fuel := rfl

/-- C5: loading the same persisted record twice seeds identical run states,
and the two independently resumed runs agree on their results and on their
final visit-count mappings; the record itself is a value the engine only
reads, so a second resume from it is idempotent and reproducible. -/
theorem record_load_idempotent (g : Graph V) (data data' : Pending V)
    (bps bps' : List Bp) (r1 r2 : StateRecord V) (fuel : Nat) (h : r1 = r2) :
    stateOfRecord r1 = stateOfRecord r2 ∧
    run g data bps (some r1) fuel = run g data' bps' (some r2) fuel ∧
    (run g data bps (some r1) fuel).2.visits
      = (run g data' bps' (some r2) fuel).2.visits := by
  subst h; exact ⟨rfl, rfl, rfl⟩

/-- A concrete record on which `record_load_idempotent` is instantiated. -/
def sampleRecord : StateRecord Nat :=
  { component := "query_embedder"
    visits := [("bm25_retriever", 1)]
    pending := [("query_embedder", [("text", 3)])]
    original := [("query_embedder", [("text", 3)])] }

/-- A concrete single-component pipeline used to evaluate resumed runs. -/
def sampleGraph : Graph Nat :=
  { components :=
      [("query_embedder", { required := ["text"], run := fun ins => some [("embedding", ((alookup ins "text").getD 0) + 1)] })]
    edges := [] }

theorem record_load_idempotent_witness :
    sampleRecord = sampleRecord ∧
    (stateOfRecord sampleRecord = stateOfRecord sampleRecord ∧
      run sampleGraph [] [] (some sampleRecord) 5
        = run sampleGraph [("x", [])] [("query_embedder", none)] (some sampleRecord) 5 ∧
      (run sampleGraph [] [] (some sampleRecord) 5).2.visits
        = (run sampleGraph [("x", [])] [("query_embedder", none)] (some sampleRecord) 5).2.visits) :=
  ⟨rfl, record_load_idempotent sampleGraph [] [("x", [])] [] [("query_embedder", none)]
    sampleRecord sampleRecord 5 rfl⟩

/-- When the loop aborts with a component-execution error, no state record
was persisted along the way and the final state exhibits the raising
component: it was the selected runnable component and its invocation on its
pending inputs raised. -/
theorem loop_error_state (g : Graph V) (bps : List Bp) (cn : String) :
    ∀ (fuel : Nat) (st : RunState V), (loopFull fuel g bps st).1 = .componentError cn →
      ∃ stF c, loopFull fuel g bps st = (.componentError cn, stF) ∧
        stF.saved = st.saved ∧
        (cn, c) ∈ g.components ∧
        selectRunnable g stF.pending = some (cn, c) ∧
        c.run ((alookup stF.pending cn).getD []) = none := by
  intro fuel
  induction fuel with
  | zero => intro st h; simp [loopFull] at h
  | succ fuel ih =>
    intro st h
    rcases hsel : selectRunnable g st.pending with _ | ⟨n, c⟩
    · rw [loopFull_succ_none hsel] at h; simp at h
    · by_cases hbp : bpMatch bps n (getV st.visits n) = true
      · rw [loopFull_succ_halt hsel hbp] at h; simp at h
      · simp only [Bool.not_eq_true] at hbp
        rcases hrun : c.run ((alookup st.pending n).getD []) with _ | outs
        · rw [loopFull_succ_err hsel hbp hrun] at h
          simp only [RunResult.componentError.injEq] at h
          subst h
          refine ⟨bumpEvals st, c, ?_, rfl, List.mem_of_find?_eq_some hsel, hsel, hrun⟩
          rw [loopFull_succ_err hsel hbp hrun]
        · rw [loopFull_succ_step hsel hbp hrun] at h
          obtain ⟨stF, c', heq, hsaved, hmem, hsel', hrun'⟩ := ih _ h
          refine ⟨stF, c', ?_, ?_, hmem, hsel', hrun'⟩
          · rw [loopFull_succ_step hsel hbp hrun]; exact heq
          · rw [hsaved]; rfl

/-- C6: when a component invocation raises, the run aborts with a
`componentError` naming that component (seen at the final state: the named
component was the selected runnable one and its invocation on its pending
inputs raised), and no persisted state record was written for the failure
(only explicit breakpoint halts write records). -/
theorem component_error_propagation (g : Graph V) (data : Pending V)
    (bps : List Bp) (fuel : Nat) (cn : String)
    (h : (run g data bps none fuel).1 = .componentError cn) :
    (run g data bps none fuel).2.saved = [] ∧
    ∃ c, (cn, c) ∈ g.components ∧
      selectRunnable g (run g data bps none fuel).2.pending = some (cn, c) ∧
      c.run ((alookup (run g data bps none fuel).2.pending cn).getD []) = none := by
  obtain ⟨stF, c, heq, hsaved, hmem, hsel, hrun⟩ :=
    loop_error_state g bps cn fuel (initState data) h
  have h2 : (run g data bps none fuel).2 = stF := by
    simp only [run]; rw [heq]
  rw [h2, hsaved]
  exact ⟨rfl, c, hmem, hsel, hrun⟩

/-- A one-component pipeline whose only component raises when invoked. -/
def failingGraph : Graph Nat :=
  { components := [("boom", { required := ["x"], run := fun _ => none })]
    edges := [] }

theorem applyStep_pending (g : Graph V) (n : String) (outs : List (String × V)) (st : RunState V) :
    (applyStep g n outs st).pending = distribute g n outs (aerase st.pending n) := rfl

theorem applyStep_visits (g : Graph V) (n : String) (outs : List (String × V)) (st : RunState V) :
    (applyStep g n outs st).visits = incV st.visits n := rfl

theorem applyStep_trace (g : Graph V) (n : String) (outs : List (String × V)) (st : RunState V) :
    (applyStep g n outs st).trace = st.trace ++ [n] := rfl

theorem applyStep_saved (g : Graph V) (n : String) (outs : List (String × V)) (st : RunState V) :
    (applyStep g n outs st).saved = st.saved := rfl

theorem applyStep_original (g : Graph V) (n : String) (outs : List (String × V)) (st : RunState V) :
    (applyStep g n outs st).original = st.original := rfl

theorem applyStep_bpEvals (g : Graph V) (n : String) (outs : List (String × V)) (st : RunState V) :
    (applyStep g n outs st).bpEvals = st.bpEvals := rfl

theorem applyStep_outputs (g : Graph V) (n : String) (outs : List (String × V)) (st : RunState V) :
    (applyStep g n outs st).outputs
      = (if hasOutEdges g n then st.outputs else st.outputs ++ [(n, outs)]) := rfl

theorem stepOnce_none {g : Graph V} {st : RunState V}
    (hsel : selectRunnable g st.pending = none) : stepOnce g st = none := by
  simp only [stepOnce, hsel]

theorem stepOnce_err {g : Graph V} {st : RunState V} {n : String} {c : Comp V}
    (hsel : selectRunnable g st.pending = some (n, c))
    (hrun : c.run ((alookup st.pending n).getD []) = none) : stepOnce g st = none := by
  simp only [stepOnce, hsel, hrun]

theorem stepOnce_step {g : Graph V} {st : RunState V} {n : String} {c : Comp V}
    {outs : List (String × V)}
    (hsel : selectRunnable g st.pending = some (n, c))
    (hrun : c.run ((alookup st.pending n).getD []) = some outs) :
    stepOnce g st = some (applyStep g n outs (bumpEvals st)) := by
  simp only [stepOnce, hsel, hrun, bumpEvals]

/-- Inversion of a successful engine step. -/
theorem stepOnce_inv {g : Graph V} {st st1 : RunState V}
    (h : stepOnce g st = some st1) :
    ∃ n c outs, selectRunnable g st.pending = some (n, c) ∧
      c.run ((alookup st.pending n).getD []) = some outs ∧
      st1 = applyStep g n outs (bumpEvals st) := by
  rcases hsel : selectRunnable g st.pending with _ | ⟨n, c⟩
  · rw [stepOnce_none hsel] at h; exact absurd h (by simp)
  · rcases hrun : c.run ((alookup st.pending n).getD []) with _ | outs
    · rw [stepOnce_err hsel hrun] at h; exact absurd h (by simp)
    · rw [stepOnce_step hsel hrun] at h
      exact ⟨n, c, outs, rfl, hrun, (Option.some_inj.mp h).symm⟩

theorem iter_succ_none {g : Graph V} {st : RunState V} {k : Nat}
    (h : stepOnce g st = none) : iter g (k + 1) st = st := by
  simp only [iter, h]

theorem iter_succ_some {g : Graph V} {st st1 : RunState V} {k : Nat}
    (h : stepOnce g st = some st1) : iter g (k + 1) st = iter g k st1 := by
  simp only [iter, h]

theorem iter_idle {g : Graph V} {st : RunState V}
    (h : stepOnce g st = none) : ∀ k, iter g k st = st := by
  intro k
  cases k with
  | zero => rfl
  | succ k => exact iter_succ_none h

/-- Every breakpoint halt arises at a state the breakpoint-free stepping
relation reaches from the initial state: the loop with breakpoints takes
exactly the same steps as the loop without them up to the halt, where it
persists a record of the reached state and stops with the matched
component selected but not yet invoked. -/
theorem loop_halt_state (g : Graph V) (bps : List Bp) :
    ∀ (fuel : Nat) (st : RunState V) (r : StateRecord V) (stF : RunState V),
      loopFull fuel g bps st = (.breakpointHalt r, stF) →
      ∃ k n c,
        selectRunnable g (iter g k st).pending = some (n, c) ∧
        bpMatch bps n (getV (iter g k st).visits n) = true ∧
        r = recordOf (iter g k st) n ∧
        stF = { bumpEvals (iter g k st) with saved := (iter g k st).saved ++ [r] } := by
  intro fuel
  induction fuel with
  | zero => intro st r stF h; simp [loopFull] at h
  | succ fuel ih =>
    intro st r stF h
    rcases hsel : selectRunnable g st.pending with _ | ⟨n, c⟩
    · rw [loopFull_succ_none hsel] at h; simp at h
    · by_cases hbp : bpMatch bps n (getV st.visits n) = true
      · rw [loopFull_succ_halt hsel hbp] at h
        have h1 : recordOf st n = r := by
          have hfst := congrArg Prod.fst h
          simpa using hfst
        have h2 : ({ bumpEvals st with saved := st.saved ++ [recordOf st n] } : RunState V) = stF :=
          congrArg Prod.snd h
        refine ⟨0, n, c, hsel, hbp, h1.symm, ?_⟩
        rw [← h2, h1]
        rfl
      · simp only [Bool.not_eq_true] at hbp
        rcases hrun : c.run ((alookup st.pending n).getD []) with _ | outs
        · rw [loopFull_succ_err hsel hbp hrun] at h; simp at h
        · rw [loopFull_succ_step hsel hbp hrun] at h
          obtain ⟨k, n', c', hsel', hbp', hr, hstF⟩ := ih _ _ _ h
          refine ⟨k + 1, n', c', ?_, ?_, ?_, ?_⟩ <;>
            rw [iter_succ_some (stepOnce_step hsel hrun)] <;> assumption

/-- Offsetting the accumulated outputs of the starting state (its other
ghost fields and visit counts arbitrary) offsets the final outputs of a
completing breakpoint-free run by the same prefix. -/
theorem loop_frame (g : Graph V) (o : Pending V) :
    ∀ (fuel : Nat) (st st' : RunState V) (out : Pending V),
      st'.pending = st.pending → st'.outputs = o ++ st.outputs →
      (loopFull fuel g [] st).1 = .completed out →
      (loopFull fuel g [] st').1 = .completed (o ++ out) := by
  intro fuel
  induction fuel with
  | zero => intro st st' out _ _ h; simp [loopFull] at h
  | succ fuel ih =>
    intro st st' out hp ho h
    rcases hsel : selectRunnable g st.pending with _ | ⟨n, c⟩
    · rw [loopFull_succ_none hsel] at h
      simp only at h
      have hsel' : selectRunnable g st'.pending = none := by rw [hp]; exact hsel
      rw [loopFull_succ_none hsel']
      simp only [RunResult.completed.injEq] at h ⊢
      rw [ho, h]
    · rcases hrun : c.run ((alookup st.pending n).getD []) with _ | outs
      · rw [loopFull_succ_err hsel (bpMatch_nil n _) hrun] at h; simp at h
      · rw [loopFull_succ_step hsel (bpMatch_nil n _) hrun] at h
        have hsel' : selectRunnable g st'.pending = some (n, c) := by rw [hp]; exact hsel
        have hrun' : c.run ((alookup st'.pending n).getD []) = some outs := by
          rw [hp]; exact hrun
        rw [loopFull_succ_step hsel' (bpMatch_nil n _) hrun']
        refine ih _ _ _ ?_ ?_ h
        · simp only [applyStep_pending, bumpEvals, hp]
        · simp only [applyStep_outputs, bumpEvals]
          cases hasOutEdges g n <;> simp [ho, hp]

/-- A breakpoint-free run that completes from a state the stepping relation
reaches also completes, with the same outputs, from the state it was
reached from (with more fuel). -/
theorem loop_absorb (g : Graph V) :
    ∀ (k : Nat) (st : RunState V) (out : Pending V) (fuel : Nat),
      (loopFull fuel g [] (iter g k st)).1 = .completed out →
      ∃ fuel', (loopFull fuel' g [] st).1 = .completed out := by
  intro k
  induction k with
  | zero => intro st out fuel h; exact ⟨fuel, h⟩
  | succ k ih =>
    intro st out fuel h
    rcases hso : stepOnce g st with _ | st1
    · rw [iter_succ_none hso] at h; exact ⟨fuel, h⟩
    · rw [iter_succ_some hso] at h
      obtain ⟨fuel', h'⟩ := ih st1 out fuel h
      obtain ⟨n, c, outs, hsel, hrun, hst1⟩ := stepOnce_inv hso
      refine ⟨fuel' + 1, ?_⟩
      rw [loopFull_succ_step hsel (bpMatch_nil n _) hrun, ← hst1]
      exact h'

theorem component_error_propagation_witness :
    (run failingGraph [("boom", [("x", 0)])] [] none 5).1 = .componentError "boom" ∧
    ((run failingGraph [("boom", [("x", 0)])] [] none 5).2.saved = [] ∧
      ∃ c, ("boom", c) ∈ failingGraph.components ∧
        selectRunnable failingGraph (run failingGraph [("boom", [("x", 0)])] [] none 5).2.pending = some ("boom", c) ∧
        c.run ((alookup (run failingGraph [("boom", [("x", 0)])] [] none 5).2.pending "boom").getD []) = none) :=
  ⟨rfl, component_error_propagation failingGraph [("boom", [("x", 0)])] [] 5 "boom" rfl⟩

/-- C1, amended: resuming from the record persisted at a breakpoint halt
and running to completion yields the final outputs of the breakpoint-free
run on the same inputs, less the outputs already accumulated before the
halt: the resumed outputs, prefixed with the outputs accumulated at halt
time, are exactly the outputs of some breakpoint-free run from scratch.  In
particular, when no component with no outgoing edges executed before the
halt the two runs' final outputs are equal. -/
theorem resume_completes_run (g : Graph V) (data : Pending V) (bps : List Bp)
    (fuel fuel2 : Nat) (r : StateRecord V) (out : Pending V)
    (hhalt : (run g data bps none fuel).1 = .breakpointHalt r)
    (hres : (run g [] [] (some r) fuel2).1 = .completed out) :
    ∃ fuel3, (run g data [] none fuel3).1
      = .completed ((run g data bps none fuel).2.outputs ++ out) := by
  have hpair : loopFull fuel g bps (initState data)
      = (.breakpointHalt r, (loopFull fuel g bps (initState data)).2) := by
    have h1 : (loopFull fuel g bps (initState data)).1 = .breakpointHalt r := hhalt
    rw [← h1]
  obtain ⟨k, n, c, hsel, hbp, hr, hstF⟩ :=
    loop_halt_state g bps fuel (initState data) r _ hpair
  have hp : (iter g k (initState data)).pending = (stateOfRecord r).pending :=
    (congrArg StateRecord.pending hr).symm
  have ho : (iter g k (initState data)).outputs
      = (iter g k (initState data)).outputs ++ (stateOfRecord r).outputs :=
    (List.append_nil _).symm
  have hcomp : (loopFull fuel2 g [] (iter g k (initState data))).1
      = .completed ((iter g k (initState data)).outputs ++ out) :=
    loop_frame g _ fuel2 (stateOfRecord r) _ out hp ho hres
  obtain ⟨fuel3, h3⟩ := loop_absorb g k (initState data) _ fuel2 hcomp
  refine ⟨fuel3, ?_⟩
  have houts : (run g data bps none fuel).2.outputs = (iter g k (initState data)).outputs := by
    show (loopFull fuel g bps (initState data)).2.outputs = _
    rw [hstF]
    rfl
  rw [houts]
  exact h3

/-- Two independent sink components; a breakpoint on the second is reached
only after the first has already executed and delivered a final output. -/
def sinkA : Comp Nat := { required := ["p"], run := fun _ => some [("o", 1)] }

/-- The second independent sink component. -/
def sinkB : Comp Nat := { required := ["p"], run := fun _ => some [("o", 2)] }

/-- A pipeline of two independent sink components and no edges. -/
def twoSinkGraph : Graph Nat :=
  { components := [("A", sinkA), ("B", sinkB)], edges := [] }

/-- Initial inputs satisfying both sinks. -/
def twoSinkData : Pending Nat := [("A", [("p", 0)]), ("B", [("p", 0)])]

/-- The record persisted when the breakpoint (B, 0) halts the run on
`twoSinkGraph`: A's already-delivered final output is not captured. -/
def twoSinkRecord : StateRecord Nat :=
  { component := "B"
    visits := [("A", 1)]
    pending := [("B", [("p", 0)])]
    original := twoSinkData }

/-- C1, counterexample: on `twoSinkGraph`, halting at breakpoint (B, 0),
persisting, resuming and running to completion yields only B's output,
while the breakpoint-free run yields A's and B's outputs: the record does
not capture final outputs already produced before the halt, so the claimed
equality of final outputs fails. -/
theorem resume_equivalence_counterexample :
    (run twoSinkGraph twoSinkData [("B", some 0)] none 10).1 = .breakpointHalt twoSinkRecord ∧
    (run twoSinkGraph [] [] (some twoSinkRecord) 10).1 = .completed [("B", [("o", 2)])] ∧
    (run twoSinkGraph twoSinkData [] none 10).1
      = .completed [("A", [("o", 1)]), ("B", [("o", 2)])] ∧
    ([("B", [("o", 2)])] : Pending Nat) ≠ [("A", [("o", 1)]), ("B", [("o", 2)])] :=
  ⟨rfl, rfl, rfl, by decide⟩

theorem resume_completes_run_witness :
    ∃ fuel3, (run twoSinkGraph twoSinkData [] none fuel3).1
      = .completed ((run twoSinkGraph twoSinkData [("B", some 0)] none 10).2.outputs
          ++ [("B", [("o", 2)])]) :=
  resume_completes_run twoSinkGraph twoSinkData [("B", some 0)] 10 10 twoSinkRecord
    [("B", [("o", 2)])] rfl rfl

/-- Number of completed invocations of component `c` recorded in a trace. -/
def countTrace (c : String) (tr : List String) : Nat :=
  (tr.filter (fun x => decide (x = c))).length

theorem countTrace_append_one (c n : String) (tr : List String) :
    countTrace c (tr ++ [n]) = countTrace c tr + (if n = c then 1 else 0) := by
  by_cases h : n = c <;> simp [countTrace, List.filter_append, h]

theorem getV_incV (vs : List (String × Nat)) (n c : String) :
    getV (incV vs n) c = if n = c then getV vs n + 1 else getV vs c := by
  by_cases h : n = c <;> simp [incV, getV, alookup_aset, h]

/-- The visit-count mapping agrees with the number of completed invocations
recorded in the ghost trace. -/
def VisitInv (st : RunState V) : Prop :=
  ∀ c, getV st.visits c = countTrace c st.trace

theorem visitInv_initState (data : Pending V) : VisitInv (initState data) := by
  intro c; rfl

theorem visitInv_applyStep {g : Graph V} {st : RunState V} {n : String}
    {outs : List (String × V)} (hv : VisitInv st) : VisitInv (applyStep g n outs st) := by
  intro c
  rw [applyStep_visits, applyStep_trace, getV_incV, countTrace_append_one]
  by_cases h : n = c <;> simp [h, hv c, hv n]

theorem visitInv_iter {g : Graph V} (k : Nat) (st : RunState V) (hv : VisitInv st) :
    VisitInv (iter g k st) := by
  induction k generalizing st with
  | zero => exact hv
  | succ k ih =>
    rcases hso : stepOnce g st with _ | st1
    · rw [iter_succ_none hso]; exact hv
    · rw [iter_succ_some hso]
      obtain ⟨n, c, outs, hsel, hrun, hst1⟩ := stepOnce_inv hso
      subst hst1
      exact ih _ (visitInv_applyStep hv)

/-- Each engine step performs exactly one breakpoint evaluation and records
exactly one completed invocation, so the two ghost counters advance in
lock-step. -/
theorem iter_evals (g : Graph V) :
    ∀ (k : Nat) (st : RunState V),
      (iter g k st).bpEvals + st.trace.length = st.bpEvals + (iter g k st).trace.length := by
  intro k
  induction k with
  | zero => intro st; rfl
  | succ k ih =>
    intro st
    rcases hso : stepOnce g st with _ | st1
    · rw [iter_succ_none hso]
    · rw [iter_succ_some hso]
      obtain ⟨n, c, outs, hsel, hrun, hst1⟩ := stepOnce_inv hso
      have hb : st1.bpEvals = st.bpEvals + 1 := by rw [hst1]; rfl
      have ht : st1.trace.length = st.trace.length + 1 := by
        rw [hst1, applyStep_trace]; simp [bumpEvals]
      have := ih st1
      omega

theorem bpMatch_single {cn : String} {nv v : Nat} {n : String}
    (h : bpMatch [(cn, some nv)] n v = true) : n = cn ∧ v = nv := by
  simp [bpMatch] at h
  exact ⟨h.1.symm, h.2.symm⟩

/-- C4: the visit counter increments the invoked component's count by
exactly one per completed invocation (appending exactly that invocation to
the trace), and the visit counts persisted in a breakpoint record equal the
number of invocations each component had completed at halt time — so a
recorded count of 0 means the component was about to run for the first
time. -/
theorem visit_counter_correct (g : Graph V) (data : Pending V) (bps : List Bp)
    (fuel : Nat) (r : StateRecord V)
    (hhalt : (run g data bps none fuel).1 = .breakpointHalt r) :
    (∀ (st : RunState V) (n cc : String) (outs : List (String × V)),
        getV (applyStep g n outs st).visits cc
          = (if n = cc then getV st.visits cc + 1 else getV st.visits cc) ∧
        (applyStep g n outs st).trace = st.trace ++ [n]) ∧
    (∀ cc, getV r.visits cc = countTrace cc (run g data bps none fuel).2.trace) := by
  constructor
  · intro st n cc outs
    refine ⟨?_, applyStep_trace g n outs st⟩
    rw [applyStep_visits, getV_incV]
    by_cases h : n = cc <;> simp [h]
  · have hpair : loopFull fuel g bps (initState data)
        = (.breakpointHalt r, (loopFull fuel g bps (initState data)).2) := by
      have h1 : (loopFull fuel g bps (initState data)).1 = .breakpointHalt r := hhalt
      rw [← h1]
    obtain ⟨k, n, c, hsel, hbp, hr, hstF⟩ :=
      loop_halt_state g bps fuel (initState data) r _ hpair
    have hinv : VisitInv (iter g k (initState data)) :=
      visitInv_iter k _ (visitInv_initState data)
    intro cc
    have hrv : r.visits = (iter g k (initState data)).visits :=
      congrArg StateRecord.visits hr
    have htr : (run g data bps none fuel).2.trace = (iter g k (initState data)).trace := by
      show (loopFull fuel g bps (initState data)).2.trace = _
      rw [hstF]
      rfl
    rw [hrv, htr]
    exact hinv cc

/-- The source component of the two-stage pipeline of spec §8's first
scenario: no required inputs, one output wired to the consumer. -/
def chainA : Comp Nat := { required := [], run := fun _ => some [("x", 7)] }

/-- The consumer component of the two-stage pipeline. -/
def chainB : Comp Nat :=
  { required := ["p"], run := fun ins => some [("y", ((alookup ins "p").getD 0) + 1)] }

/-- The two-stage pipeline A -> B of spec §8's first scenario. -/
def chainGraph : Graph Nat :=
  { components := [("A", chainA), ("B", chainB)], edges := [(("A", "x"), ("B", "p"))] }

/-- Spec §8 scenario inputs: A receives an empty input mapping. -/
def chainData : Pending Nat := [("A", [])]

/-- The record persisted when breakpoint (B, 0) halts the chain pipeline:
A has executed once and its output sits in B's pending inputs. -/
def chainRecord : StateRecord Nat :=
  { component := "B"
    visits := [("A", 1)]
    pending := [("B", [("p", 7)])]
    original := chainData }

theorem visit_counter_correct_witness :
    (run chainGraph chainData [("B", some 0)] none 10).1 = .breakpointHalt chainRecord ∧
    (∀ cc, getV chainRecord.visits cc
      = countTrace cc (run chainGraph chainData [("B", some 0)] none 10).2.trace) :=
  ⟨rfl, (visit_counter_correct chainGraph chainData [("B", some 0)] 10 chainRecord rfl).2⟩

/-- C2, amended: when a run with the single registered breakpoint (C, n)
halts, the persisted record names C with visit count n, C had completed
exactly n invocations at the halt (so for n = 0 it had produced no output
in that run), the halt happened before the matched invocation executed, and
exactly one breakpoint evaluation happened per completed invocation plus
one for the halted invocation. -/
theorem breakpoint_halt_invariants (g : Graph V) (data : Pending V)
    (cn : String) (nv fuel : Nat) (r : StateRecord V)
    (hhalt : (run g data [(cn, some nv)] none fuel).1 = .breakpointHalt r) :
    r.component = cn ∧
    getV r.visits cn = nv ∧
    countTrace cn (run g data [(cn, some nv)] none fuel).2.trace = nv ∧
    (run g data [(cn, some nv)] none fuel).2.bpEvals
      = (run g data [(cn, some nv)] none fuel).2.trace.length + 1 ∧
    (nv = 0 → countTrace cn (run g data [(cn, some nv)] none fuel).2.trace = 0) := by
  have hpair : loopFull fuel g [(cn, some nv)] (initState data)
      = (.breakpointHalt r, (loopFull fuel g [(cn, some nv)] (initState data)).2) := by
    have h1 : (loopFull fuel g [(cn, some nv)] (initState data)).1 = .breakpointHalt r := hhalt
    rw [← h1]
  obtain ⟨k, n, c, hsel, hbp, hr, hstF⟩ :=
    loop_halt_state g [(cn, some nv)] fuel (initState data) r _ hpair
  obtain ⟨hn, hv⟩ := bpMatch_single hbp
  subst hn
  have hinv : VisitInv (iter g k (initState data)) :=
    visitInv_iter k _ (visitInv_initState data)
  have hcomp : r.component = n := congrArg StateRecord.component hr
  have hrv : r.visits = (iter g k (initState data)).visits :=
    congrArg StateRecord.visits hr
  have htr : (run g data [(n, some nv)] none fuel).2.trace
      = (iter g k (initState data)).trace := by
    show (loopFull fuel g [(n, some nv)] (initState data)).2.trace = _
    rw [hstF]
    rfl
  have hbe : (run g data [(n, some nv)] none fuel).2.bpEvals
      = (iter g k (initState data)).bpEvals + 1 := by
    show (loopFull fuel g [(n, some nv)] (initState data)).2.bpEvals = _
    rw [hstF]
    rfl
  have hevals : (iter g k (initState data)).bpEvals
      = (iter g k (initState data)).trace.length := by
    have := iter_evals g k (initState data)
    simpa [initState] using this
  have hcount : countTrace n (run g data [(n, some nv)] none fuel).2.trace = nv := by
    rw [htr, ← hinv n]
    exact hv
  refine ⟨hcomp, ?_, hcount, ?_, fun _ => by omega⟩
  · rw [hrv]; exact hv
  · rw [hbe, htr, hevals]

theorem breakpoint_halt_invariants_witness :
    (run chainGraph chainData [("B", some 0)] none 10).1 = .breakpointHalt chainRecord ∧
    (chainRecord.component = "B" ∧
      getV chainRecord.visits "B" = 0 ∧
      countTrace "B" (run chainGraph chainData [("B", some 0)] none 10).2.trace = 0 ∧
      (run chainGraph chainData [("B", some 0)] none 10).2.bpEvals
        = (run chainGraph chainData [("B", some 0)] none 10).2.trace.length + 1 ∧
      (0 = 0 → countTrace "B" (run chainGraph chainData [("B", some 0)] none 10).2.trace = 0)) :=
  ⟨rfl, breakpoint_halt_invariants chainGraph chainData "B" 0 10 chainRecord rfl⟩

/-- A component that is fed both by the initial inputs and by a later
producer, so that it executes twice in an acyclic graph. -/
def dupComp : Comp Nat := { required := ["x"], run := fun _ => some [("o", 1)] }

/-- The producer that refeeds `dupComp` after its first execution. -/
def srcComp : Comp Nat := { required := ["y"], run := fun _ => some [("o", 2)] }

/-- An acyclic two-component pipeline in which the initial inputs also feed
the connected input port of `dup`, making `dup` execute twice. -/
def refeedGraph : Graph Nat :=
  { components := [("dup", dupComp), ("src", srcComp)]
    edges := [(("src", "o"), ("dup", "x"))] }

/-- Initial inputs feeding both components, including dup's connected
port. -/
def refeedData : Pending Nat := [("dup", [("x", 0)]), ("src", [("y", 0)])]

/-- The record persisted when breakpoint (dup, 1) halts the refeed
pipeline: dup has already completed one invocation. -/
def refeedRecord : StateRecord Nat :=
  { component := "dup"
    visits := [("src", 1), ("dup", 1)]
    pending := [("dup", [("x", 2)])]
    original := refeedData }

/-- C2, counterexample: a run halted by the breakpoint (dup, 1) in which
dup has already completed an invocation — and hence produced output —
before the halt, refuting the claim that the component halted on has
produced no output in that run. -/
theorem breakpoint_no_output_counterexample :
    (run refeedGraph refeedData [("dup", some 1)] none 10).1 = .breakpointHalt refeedRecord ∧
    (run refeedGraph refeedData [("dup", some 1)] none 10).2.trace = ["dup", "src"] ∧
    countTrace "dup" (run refeedGraph refeedData [("dup", some 1)] none 10).2.trace = 1 :=
  ⟨rfl, rfl, rfl⟩

theorem alookup_addPort (pd : Pending V) (dst dp : String) (v : V) (c : String) :
    alookup (addPort pd dst dp v) c
      = if dst = c then some (aset ((alookup pd dst).getD []) dp v) else alookup pd c := by
  simp [addPort, alookup_aset]

theorem entryP_of_portP {pd : Pending V} {c q : String} (h : portP pd c q = true) :
    entryP pd c = true := by
  unfold portP at h
  unfold entryP
  cases halo : alookup pd c
  · rw [halo] at h; simp at h
  · rfl

/-- A port is present exactly when it is present in the (possibly empty)
entry of its component. -/
theorem portP_eq (pd : Pending V) (c q : String) :
    portP pd c q = (alookup ((alookup pd c).getD []) q).isSome := by
  unfold portP
  cases alookup pd c <;> simp [alookup]

theorem portP_addPort_iff (pd : Pending V) (dst dp : String) (v : V) (c q : String) :
    portP (addPort pd dst dp v) c q = true ↔ ((c = dst ∧ q = dp) ∨ portP pd c q = true) := by
  rw [portP_eq, portP_eq, alookup_addPort]
  by_cases h1 : dst = c
  · subst h1
    rw [if_pos rfl]
    simp only [Option.getD_some]
    rw [alookup_aset]
    by_cases h2 : dp = q
    · simp [h2]
    · have h2' : ¬(q = dp) := fun hh => h2 hh.symm
      simp [h2, h2']
  · rw [if_neg h1]
    have h1' : ¬(c = dst) := fun hh => h1 hh.symm
    simp [h1']

theorem entryP_addPort_iff (pd : Pending V) (dst dp : String) (v : V) (c : String) :
    entryP (addPort pd dst dp v) c = true ↔ (c = dst ∨ entryP pd c = true) := by
  unfold entryP
  rw [alookup_addPort]
  by_cases h : dst = c
  · rw [if_pos h]
    simp [h]
  · rw [if_neg h]
    have h' : ¬(c = dst) := fun hh => h hh.symm
    simp [h']

theorem portP_aerase (pd : Pending V) (n c q : String) :
    portP (aerase pd n) c q = if n = c then false else portP pd c q := by
  unfold portP
  rw [alookup_aerase]
  by_cases h : n = c <;> simp [h]

theorem entryP_aerase (pd : Pending V) (n c : String) :
    entryP (aerase pd n) c = if n = c then false else entryP pd c := by
  unfold entryP
  rw [alookup_aerase]
  by_cases h : n = c <;> simp [h]

theorem runnableB_iff (pd : Pending V) (comp : Comp V) (n : String) :
    runnableB pd comp n = true ↔
      (entryP pd n = true ∧ ∀ p ∈ comp.required, portP pd n p = true) := by
  unfold runnableB entryP portP
  cases halo : alookup pd n
  · simp
  · simp [List.all_eq_true]

/-- Provenance of a port in the pending mapping after folding one output
value over a list of edges. -/
theorem foldl_addPort_portP (src port : String) (v : V) (c q : String) :
    ∀ (es : List ((String × String) × (String × String))) (pd : Pending V),
      portP (es.foldl
        (fun pd e => if e.1 = (src, port) then addPort pd e.2.1 e.2.2 v else pd) pd) c q = true →
      portP pd c q = true ∨ ∃ e ∈ es, e.1 = (src, port) ∧ e.2 = (c, q) := by
  intro es
  induction es with
  | nil => intro pd h; exact Or.inl h
  | cons e es ih =>
    intro pd h
    rw [List.foldl_cons] at h
    rcases ih _ h with h1 | ⟨e', he', h1, h2⟩
    · by_cases he : e.1 = (src, port)
      · rw [if_pos he] at h1
        rcases (portP_addPort_iff _ _ _ _ _ _).mp h1 with ⟨hc, hq⟩ | h1
        · refine Or.inr ⟨e, List.mem_cons_self e es, he, ?_⟩
          have hpair : e.2 = (e.2.1, e.2.2) := rfl
          rw [hpair, ← hc, ← hq]
        · exact Or.inl h1
      · rw [if_neg he] at h1
        exact Or.inl h1
    · exact Or.inr ⟨e', List.mem_cons_of_mem e he', h1, h2⟩

theorem foldl_addPort_entryP (src port : String) (v : V) (c : String) :
    ∀ (es : List ((String × String) × (String × String))) (pd : Pending V),
      entryP (es.foldl
        (fun pd e => if e.1 = (src, port) then addPort pd e.2.1 e.2.2 v else pd) pd) c = true →
      entryP pd c = true ∨ ∃ e ∈ es, e.1 = (src, port) ∧ e.2.1 = c := by
  intro es
  induction es with
  | nil => intro pd h; exact Or.inl h
  | cons e es ih =>
    intro pd h
    rw [List.foldl_cons] at h
    rcases ih _ h with h1 | ⟨e', he', h1, h2⟩
    · by_cases he : e.1 = (src, port)
      · rw [if_pos he] at h1
        rcases (entryP_addPort_iff _ _ _ _ _).mp h1 with hc | h1
        · exact Or.inr ⟨e, List.mem_cons_self e es, he, hc.symm⟩
        · exact Or.inl h1
      · rw [if_neg he] at h1
        exact Or.inl h1
    · exact Or.inr ⟨e', List.mem_cons_of_mem e he', h1, h2⟩

theorem distOne_portP {g : Graph V} {src port : String} {v : V} {pd : Pending V} {c q : String}
    (h : portP (distOne g src port v pd) c q = true) :
    portP pd c q = true ∨ ∃ e ∈ g.edges, e.1 = (src, port) ∧ e.2 = (c, q) :=
  foldl_addPort_portP src port v c q g.edges pd h

theorem distOne_entryP {g : Graph V} {src port : String} {v : V} {pd : Pending V} {c : String}
    (h : entryP (distOne g src port v pd) c = true) :
    entryP pd c = true ∨ ∃ e ∈ g.edges, e.1 = (src, port) ∧ e.2.1 = c :=
  foldl_addPort_entryP src port v c g.edges pd h

theorem distribute_portP {g : Graph V} {src : String} {c q : String} :
    ∀ (outs : List (String × V)) (pd : Pending V),
      portP (distribute g src outs pd) c q = true →
      portP pd c q = true ∨ ∃ e ∈ g.edges, e.1.1 = src ∧ e.2 = (c, q) := by
  intro outs
  induction outs with
  | nil => intro pd h; exact Or.inl h
  | cons pv outs ih =>
    intro pd h
    rw [distribute, List.foldl_cons] at h
    rcases ih _ h with h1 | ⟨e, he, h1, h2⟩
    · rcases distOne_portP h1 with h2 | ⟨e, he, h2, h3⟩
      · exact Or.inl h2
      · exact Or.inr ⟨e, he, by rw [h2], h3⟩
    · exact Or.inr ⟨e, he, h1, h2⟩

theorem distribute_entryP {g : Graph V} {src : String} {c : String} :
    ∀ (outs : List (String × V)) (pd : Pending V),
      entryP (distribute g src outs pd) c = true →
      entryP pd c = true ∨ ∃ e ∈ g.edges, e.1.1 = src ∧ e.2.1 = c := by
  intro outs
  induction outs with
  | nil => intro pd h; exact Or.inl h
  | cons pv outs ih =>
    intro pd h
    rw [distribute, List.foldl_cons] at h
    rcases ih _ h with h1 | ⟨e, he, h1, h2⟩
    · rcases distOne_entryP h1 with h2 | ⟨e, he, h2, h3⟩
      · exact Or.inl h2
      · exact Or.inr ⟨e, he, by rw [h2], h3⟩
    · exact Or.inr ⟨e, he, h1, h2⟩

theorem portP_mono_foldl (src port : String) (v : V) (c q : String) :
    ∀ (es : List ((String × String) × (String × String))) (pd : Pending V),
      portP pd c q = true →
      portP (es.foldl
        (fun pd e => if e.1 = (src, port) then addPort pd e.2.1 e.2.2 v else pd) pd) c q = true := by
  intro es
  induction es with
  | nil => intro pd h; exact h
  | cons e es ih =>
    intro pd h
    rw [List.foldl_cons]
    refine ih _ ?_
    by_cases he : e.1 = (src, port)
    · rw [if_pos he]; exact (portP_addPort_iff _ _ _ _ _ _).mpr (Or.inr h)
    · rw [if_neg he]; exact h

theorem entryP_mono_foldl (src port : String) (v : V) (c : String) :
    ∀ (es : List ((String × String) × (String × String))) (pd : Pending V),
      entryP pd c = true →
      entryP (es.foldl
        (fun pd e => if e.1 = (src, port) then addPort pd e.2.1 e.2.2 v else pd) pd) c = true := by
  intro es
  induction es with
  | nil => intro pd h; exact h
  | cons e es ih =>
    intro pd h
    rw [List.foldl_cons]
    refine ih _ ?_
    by_cases he : e.1 = (src, port)
    · rw [if_pos he]; exact (entryP_addPort_iff _ _ _ _ _).mpr (Or.inr h)
    · rw [if_neg he]; exact h

theorem portP_mono_distribute {g : Graph V} {src : String} {c q : String} :
    ∀ (outs : List (String × V)) (pd : Pending V),
      portP pd c q = true → portP (distribute g src outs pd) c q = true := by
  intro outs
  induction outs with
  | nil => intro pd h; exact h
  | cons pv outs ih =>
    intro pd h
    rw [distribute, List.foldl_cons]
    exact ih _ (portP_mono_foldl src pv.1 pv.2 c q g.edges pd h)

theorem entryP_mono_distribute {g : Graph V} {src : String} {c : String} :
    ∀ (outs : List (String × V)) (pd : Pending V),
      entryP pd c = true → entryP (distribute g src outs pd) c = true := by
  intro outs
  induction outs with
  | nil => intro pd h; exact h
  | cons pv outs ih =>
    intro pd h
    rw [distribute, List.foldl_cons]
    exact ih _ (entryP_mono_foldl src pv.1 pv.2 c g.edges pd h)

/-- The state sequence of the breakpoint-free run seeded from `data`. -/
def SRun (g : Graph V) (data : Pending V) (k : Nat) : RunState V :=
  iter g k (initState data)

/-- Unfold `iter` at the back: `k + 1` steps are `k` steps followed by one
more (idling once stepping has stopped). -/
theorem iter_back (g : Graph V) :
    ∀ (k : Nat) (st : RunState V),
      iter g (k + 1) st = (match stepOnce g (iter g k st) with
        | none => iter g k st
        | some st' => st') := by
  intro k
  induction k with
  | zero =>
    intro st
    cases hso : stepOnce g st <;> simp [iter, hso]
  | succ k ih =>
    intro st
    cases hso : stepOnce g st with
    | none => simp [iter_idle hso, hso]
    | some st1 =>
      rw [iter_succ_some (k := k + 1) hso, ih st1, iter_succ_some (k := k) hso]

/-- Each step of the run either stalls (nothing runnable, or the selected
component raised) or executes the selected runnable component. -/
theorem SRun_cases (g : Graph V) (data : Pending V) (k : Nat) :
    SRun g data (k + 1) = SRun g data k ∨
    ∃ n c outs, selectRunnable g (SRun g data k).pending = some (n, c) ∧
      c.run ((alookup (SRun g data k).pending n).getD []) = some outs ∧
      SRun g data (k + 1) = applyStep g n outs (bumpEvals (SRun g data k)) := by
  unfold SRun
  rw [iter_back]
  cases hso : stepOnce g (iter g k (initState data)) with
  | none => exact Or.inl rfl
  | some st1 =>
    obtain ⟨n, c, outs, hsel, hrun, hst1⟩ := stepOnce_inv hso
    exact Or.inr ⟨n, c, outs, hsel, hrun, hst1⟩

/-- Step `k` of the run executes component `n` (the trace grows by `n`). -/
def ExecAt (g : Graph V) (data : Pending V) (k : Nat) (n : String) : Prop :=
  (SRun g data (k + 1)).trace = (SRun g data k).trace ++ [n]

theorem execAt_inv {g : Graph V} {data : Pending V} {k : Nat} {n : String}
    (h : ExecAt g data k n) :
    ∃ c outs, selectRunnable g (SRun g data k).pending = some (n, c) ∧
      c.run ((alookup (SRun g data k).pending n).getD []) = some outs ∧
      SRun g data (k + 1) = applyStep g n outs (bumpEvals (SRun g data k)) := by
  rcases SRun_cases g data k with hstall | ⟨n', c, outs, hsel, hrun, hstep⟩
  · unfold ExecAt at h
    rw [hstall] at h
    exact absurd (congrArg List.length h) (by simp)
  · have hn : n' = n := by
      unfold ExecAt at h
      rw [hstep, applyStep_trace] at h
      have h' : (SRun g data k).trace ++ [n'] = (SRun g data k).trace ++ [n] := h
      simpa using h'
    subst hn
    exact ⟨c, outs, hsel, hrun, hstep⟩

/-- Each step either leaves the state unchanged or is an execution event. -/
theorem SRun_trace_cases (g : Graph V) (data : Pending V) (k : Nat) :
    SRun g data (k + 1) = SRun g data k ∨ ∃ n, ExecAt g data k n := by
  rcases SRun_cases g data k with hstall | ⟨n, c, outs, _, _, hstep⟩
  · exact Or.inl hstall
  · refine Or.inr ⟨n, ?_⟩
    unfold ExecAt
    rw [hstep, applyStep_trace]
    rfl

theorem execAt_count {g : Graph V} {data : Pending V} {m : Nat} {c : String}
    (h : ExecAt g data m c) :
    countTrace c (SRun g data (m + 1)).trace = countTrace c (SRun g data m).trace + 1 := by
  unfold ExecAt at h
  rw [h, countTrace_append_one, if_pos rfl]

theorem count_mono (g : Graph V) (data : Pending V) (c : String) :
    ∀ (k l : Nat), k ≤ l →
      countTrace c (SRun g data k).trace ≤ countTrace c (SRun g data l).trace := by
  intro k l hkl
  induction l, hkl using Nat.le_induction with
  | base => exact Nat.le_refl _
  | succ l hkl ih =>
    rcases SRun_trace_cases g data l with hstall | ⟨n, hex⟩
    · rw [hstall]; exact ih
    · unfold ExecAt at hex
      rw [hex, countTrace_append_one]
      omega

/-- Without a double execution of `c`, its trace count never exceeds one,
and a count of one exhibits the execution step. -/
theorem count_cases_of_no_double {g : Graph V} {data : Pending V} {c : String}
    (hnd : ∀ i j, i < j → ExecAt g data i c → ExecAt g data j c → False) :
    ∀ k, countTrace c (SRun g data k).trace = 0 ∨
      (countTrace c (SRun g data k).trace = 1 ∧ ∃ i, i < k ∧ ExecAt g data i c) := by
  intro k
  induction k with
  | zero => exact Or.inl rfl
  | succ k ih =>
    rcases SRun_trace_cases g data k with hstall | ⟨n, hex⟩
    · rw [hstall]
      rcases ih with h0 | ⟨h1, i, hik, hexi⟩
      · exact Or.inl h0
      · exact Or.inr ⟨h1, i, Nat.lt_succ_of_lt hik, hexi⟩
    · by_cases hnc : n = c
      · subst hnc
        rcases ih with h0 | ⟨h1, i, hik, hexi⟩
        · exact Or.inr ⟨by rw [execAt_count hex, h0], k, Nat.lt_succ_self k, hex⟩
        · exact (hnd i k hik hexi hex).elim
      · have hcount : countTrace c (SRun g data (k + 1)).trace
            = countTrace c (SRun g data k).trace := by
          unfold ExecAt at hex
          rw [hex, countTrace_append_one, if_neg hnc]
          omega
        rcases ih with h0 | ⟨h1, i, hik, hexi⟩
        · exact Or.inl (by rw [hcount, h0])
        · exact Or.inr ⟨by rw [hcount, h1], i, Nat.lt_succ_of_lt hik, hexi⟩

theorem count_le_one_of_no_double {g : Graph V} {data : Pending V} {c : String}
    (hnd : ∀ i j, i < j → ExecAt g data i c → ExecAt g data j c → False) (k : Nat) :
    countTrace c (SRun g data k).trace ≤ 1 := by
  rcases count_cases_of_no_double hnd k with h | ⟨h, _⟩ <;> omega

/-- Interval provenance: a port absent at step `k` and present at a later
step `l` was placed by an execution in between, along an edge into that
port. -/
theorem portP_came_from {g : Graph V} {data : Pending V} {c q : String} :
    ∀ (l k : Nat), k ≤ l →
      portP (SRun g data k).pending c q = false →
      portP (SRun g data l).pending c q = true →
      ∃ m, k ≤ m ∧ m < l ∧ ∃ n p', ExecAt g data m n ∧ ((n, p'), (c, q)) ∈ g.edges := by
  intro l
  induction l with
  | zero =>
    intro k hk h0 h1
    have hk0 : k = 0 := Nat.le_zero.mp hk
    subst hk0
    rw [h0] at h1
    exact absurd h1 (by simp)
  | succ l ih =>
    intro k hk h0 h1
    by_cases hkl : k = l + 1
    · subst hkl
      rw [h0] at h1
      exact absurd h1 (by simp)
    · have hk' : k ≤ l := by omega
      by_cases hl : portP (SRun g data l).pending c q = true
      · obtain ⟨m, hm1, hm2, rest⟩ := ih k hk' h0 hl
        exact ⟨m, hm1, Nat.lt_succ_of_lt hm2, rest⟩
      · have hl' : portP (SRun g data l).pending c q = false := by
          cases hB : portP (SRun g data l).pending c q
          · rfl
          · exact absurd hB hl
        rcases SRun_cases g data l with hstall | ⟨n, c', outs, hsel, hrun, hstep⟩
        · rw [hstall, hl'] at h1
          exact absurd h1 (by simp)
        · have hex : ExecAt g data l n := by
            unfold ExecAt
            rw [hstep, applyStep_trace]
            rfl
          rw [hstep, applyStep_pending] at h1
          rcases distribute_portP _ _ h1 with h2 | ⟨e, he, h2, h3⟩
          · rw [portP_aerase] at h2
            by_cases hnc : n = c
            · rw [if_pos hnc] at h2
              exact absurd h2 (by simp)
            · rw [if_neg hnc] at h2
              have h2' : portP (SRun g data l).pending c q = true := h2
              rw [hl'] at h2'
              exact absurd h2' (by simp)
          · refine ⟨l, hk', Nat.lt_succ_self l, n, e.1.2, hex, ?_⟩
            have hpair : e = ((e.1.1, e.1.2), e.2) := rfl
            rw [← h2, ← h3, ← hpair]
            exact he

/-- Interval provenance for whole entries: an entry absent at step `k` and
present at step `l` was created by an execution in between, along an edge
into that component. -/
theorem entryP_came_from {g : Graph V} {data : Pending V} {c : String} :
    ∀ (l k : Nat), k ≤ l →
      entryP (SRun g data k).pending c = false →
      entryP (SRun g data l).pending c = true →
      ∃ m, k ≤ m ∧ m < l ∧ ∃ n, ExecAt g data m n ∧ ∃ e ∈ g.edges, e.1.1 = n ∧ e.2.1 = c := by
  intro l
  induction l with
  | zero =>
    intro k hk h0 h1
    have hk0 : k = 0 := Nat.le_zero.mp hk
    subst hk0
    rw [h0] at h1
    exact absurd h1 (by simp)
  | succ l ih =>
    intro k hk h0 h1
    by_cases hkl : k = l + 1
    · subst hkl
      rw [h0] at h1
      exact absurd h1 (by simp)
    · have hk' : k ≤ l := by omega
      by_cases hl : entryP (SRun g data l).pending c = true
      · obtain ⟨m, hm1, hm2, rest⟩ := ih k hk' h0 hl
        exact ⟨m, hm1, Nat.lt_succ_of_lt hm2, rest⟩
      · have hl' : entryP (SRun g data l).pending c = false := by
          cases hB : entryP (SRun g data l).pending c
          · rfl
          · exact absurd hB hl
        rcases SRun_cases g data l with hstall | ⟨n, c', outs, hsel, hrun, hstep⟩
        · rw [hstall, hl'] at h1
          exact absurd h1 (by simp)
        · have hex : ExecAt g data l n := by
            unfold ExecAt
            rw [hstep, applyStep_trace]
            rfl
          rw [hstep, applyStep_pending] at h1
          rcases distribute_entryP _ _ h1 with h2 | ⟨e, he, h2, h3⟩
          · rw [entryP_aerase] at h2
            by_cases hnc : n = c
            · rw [if_pos hnc] at h2
              exact absurd h2 (by simp)
            · rw [if_neg hnc] at h2
              have h2' : entryP (SRun g data l).pending c = true := h2
              rw [hl'] at h2'
              exact absurd h2' (by simp)
          · exact ⟨l, hk', Nat.lt_succ_self l, n, hex, e, he, h2, h3⟩

/-- Acyclicity witness (spec §3 Pipeline Graph invariant): a name order
along which every edge points strictly forward. -/
abbrev TopoOrdered (g : Graph V) (ord : List String) : Prop :=
  ∀ e ∈ g.edges, ord.indexOf e.1.1 < ord.indexOf e.2.1

/-- With distinct component names, the registry determines each component. -/
theorem comps_unique :
    ∀ {l : List (String × Comp V)}, (l.map Prod.fst).Nodup →
      ∀ {c : String} {x y : Comp V}, (c, x) ∈ l → (c, y) ∈ l → x = y := by
  intro l
  induction l with
  | nil => intro _ c x y hx; exact absurd hx (List.not_mem_nil _)
  | cons e es ih =>
    intro hnd c x y hx hy
    rw [List.map_cons, List.nodup_cons] at hnd
    rcases List.mem_cons.mp hx with hx1 | hx1 <;> rcases List.mem_cons.mp hy with hy1 | hy1
    · rw [← hx1] at hy1
      exact (Prod.mk.injEq _ _ _ _ ▸ hy1.symm).2
    · exfalso
      apply hnd.1
      rw [← hx1]
      exact List.mem_map.mpr ⟨(c, y), hy1, rfl⟩
    · exfalso
      apply hnd.1
      rw [← hy1]
      exact List.mem_map.mpr ⟨(c, x), hx1, rfl⟩
    · exact ih hnd.2 hx1 hy1

/-- An execution event selects a registered runnable component. -/
theorem execAt_runnable {g : Graph V} {data : Pending V} {i : Nat} {c : String}
    (h : ExecAt g data i c) :
    ∃ comp, (c, comp) ∈ g.components ∧ runnableB (SRun g data i).pending comp c = true := by
  obtain ⟨comp, outs, hsel, _, _⟩ := execAt_inv h
  refine ⟨comp, List.mem_of_find?_eq_some hsel, ?_⟩
  have := List.find?_some hsel
  simpa using this

/-- In an acyclic graph, executing a component consumes its pending entry:
only a self-edge could restore it within the same step. -/
theorem exec_clears {g : Graph V} {data : Pending V} {ord : List String}
    (htopo : TopoOrdered g ord) {i : Nat} {c : String} (h : ExecAt g data i c) :
    entryP (SRun g data (i + 1)).pending c = false := by
  obtain ⟨comp, outs, hsel, hrun, hstep⟩ := execAt_inv h
  rw [hstep, applyStep_pending]
  cases hE : entryP (distribute g c outs (aerase (bumpEvals (SRun g data i)).pending c)) c
  · rfl
  · exfalso
    rcases distribute_entryP _ _ hE with h2 | ⟨e, he, h2, h3⟩
    · rw [entryP_aerase, if_pos rfl] at h2
      exact absurd h2 (by simp)
    · have := htopo e he
      rw [h2, h3] at this
      exact absurd this (lt_irrefl _)

/-- A port of a component with no pending entry is absent. -/
theorem portP_false_of_entryP_false {pd : Pending V} {c q : String}
    (h : entryP pd c = false) : portP pd c q = false := by
  cases hP : portP pd c q
  · rfl
  · rw [entryP_of_portP hP] at h
    exact absurd h (by simp)

/-- A double execution of a component in an acyclic well-formed graph
forces a double execution of one of its strict predecessors. -/
theorem double_exec_descends {g : Graph V} {data : Pending V} {ord : List String}
    (htopo : TopoOrdered g ord)
    (hnames : (g.components.map Prod.fst).Nodup)
    (hreq : ∀ e ∈ g.edges, ∀ comp, (e.2.1, comp) ∈ g.components → e.2.2 ∈ (comp : Comp V).required)
    (honeEdge : ∀ e1 ∈ g.edges, ∀ e2 ∈ g.edges, (e1 : (String × String) × (String × String)).2 = (e2 : (String × String) × (String × String)).2 → e1 = e2)
    (hdata : ∀ e ∈ g.edges, portP data (e : (String × String) × (String × String)).2.1 e.2.2 = false)
    {c : String} {i j : Nat} (hij : i < j)
    (hei : ExecAt g data i c) (hej : ExecAt g data j c) :
    ∃ u m1 m2, m1 < m2 ∧ ExecAt g data m1 u ∧ ExecAt g data m2 u ∧
      ord.indexOf u < ord.indexOf c := by
  obtain ⟨comp, hmem, hruni⟩ := execAt_runnable hei
  obtain ⟨comp', hmem', hrunj⟩ := execAt_runnable hej
  have hceq : comp' = comp := comps_unique hnames hmem' hmem
  subst hceq
  have hclear : entryP (SRun g data (i + 1)).pending c = false := exec_clears htopo hei
  have hij1 : i + 1 ≤ j := hij
  rcases hq : comp'.required with _ | ⟨q, restPorts⟩
  · -- no required ports, hence no edges into c, hence the entry cannot return
    have hentj : entryP (SRun g data j).pending c = true :=
      ((runnableB_iff _ _ _).mp hrunj).1
    obtain ⟨m, _, _, n, _, e, he, _, h3⟩ := entryP_came_from j (i + 1) hij1 hclear hentj
    have hmem2 : (e.2.1, comp') ∈ g.components := by rw [h3]; exact hmem
    have := hreq e he comp' hmem2
    rw [hq] at this
    exact absurd this (List.not_mem_nil _)
  · have hq_mem : q ∈ comp'.required := by rw [hq]; exact List.mem_cons_self q restPorts
    have hporti : portP (SRun g data i).pending c q = true :=
      ((runnableB_iff _ _ _).mp hruni).2 q hq_mem
    have hportj : portP (SRun g data j).pending c q = true :=
      ((runnableB_iff _ _ _).mp hrunj).2 q hq_mem
    have hport_ip1 : portP (SRun g data (i + 1)).pending c q = false :=
      portP_false_of_entryP_false hclear
    by_cases hconn : ∃ e ∈ g.edges, (e : (String × String) × (String × String)).2 = (c, q)
    · obtain ⟨e0, he0, he0t⟩ := hconn
      have hport0 : portP (SRun g data 0).pending c q = false := by
        have hd := hdata e0 he0
        rw [he0t] at hd
        exact hd
      obtain ⟨m1, _, hm1i, n1, p1, hex1, hedge1⟩ :=
        portP_came_from i 0 (Nat.zero_le i) hport0 hporti
      obtain ⟨m2, hm2a, _, n2, p2, hex2, hedge2⟩ :=
        portP_came_from j (i + 1) hij1 hport_ip1 hportj
      have h1 : ((n1, p1), (c, q)) = e0 := honeEdge _ hedge1 _ he0 (by rw [he0t])
      have h2 : ((n2, p2), (c, q)) = e0 := honeEdge _ hedge2 _ he0 (by rw [he0t])
      have hn1 : n1 = e0.1.1 := by rw [← h1]
      have hn2 : n2 = e0.1.1 := by rw [← h2]
      refine ⟨e0.1.1, m1, m2, by omega, hn1 ▸ hex1, hn2 ▸ hex2, ?_⟩
      have htp := htopo e0 he0
      rw [he0t] at htp
      exact htp
    · obtain ⟨m, _, _, n, p', _, hedge⟩ :=
        portP_came_from j (i + 1) hij1 hport_ip1 hportj
      exact absurd ⟨((n, p'), (c, q)), hedge, rfl⟩ hconn

/-- In an acyclic graph with unique names in which every edge targets a
declared required port, each input port has at most one incoming edge, and
the initial inputs avoid connected ports, no component executes twice. -/
theorem no_double_exec {g : Graph V} {data : Pending V} {ord : List String}
    (htopo : TopoOrdered g ord)
    (hnames : (g.components.map Prod.fst).Nodup)
    (hreq : ∀ e ∈ g.edges, ∀ comp, (e.2.1, comp) ∈ g.components → e.2.2 ∈ (comp : Comp V).required)
    (honeEdge : ∀ e1 ∈ g.edges, ∀ e2 ∈ g.edges, (e1 : (String × String) × (String × String)).2 = (e2 : (String × String) × (String × String)).2 → e1 = e2)
    (hdata : ∀ e ∈ g.edges, portP data (e : (String × String) × (String × String)).2.1 e.2.2 = false) :
    ∀ (N : Nat) (c : String), ord.indexOf c ≤ N →
      ∀ i j, i < j → ExecAt g data i c → ExecAt g data j c → False := by
  intro N
  induction N with
  | zero =>
    intro c hc i j hij hei hej
    obtain ⟨u, m1, m2, hm, hexu1, hexu2, hidx⟩ :=
      double_exec_descends htopo hnames hreq honeEdge hdata hij hei hej
    omega
  | succ N ih =>
    intro c hc i j hij hei hej
    obtain ⟨u, m1, m2, hm, hexu1, hexu2, hidx⟩ :=
      double_exec_descends htopo hnames hreq honeEdge hdata hij hei hej
    exact ih u (by omega) m1 m2 hm hexu1 hexu2

/-- One step that does not execute `c` preserves `c`'s runnability:
consumption removes only the executed component's entry and distribution
only adds port values. -/
theorem runnable_preserved {g : Graph V} {data : Pending V} {comp : Comp V}
    {c : String} {k : Nat}
    (hsat : runnableB (SRun g data k).pending comp c = true)
    (hne : ∀ n, ExecAt g data k n → n ≠ c) :
    runnableB (SRun g data (k + 1)).pending comp c = true := by
  rcases SRun_cases g data k with hstall | ⟨n, c', outs, hsel, hrun, hstep⟩
  · rw [hstall]; exact hsat
  · have hexec : ExecAt g data k n := by
      unfold ExecAt
      rw [hstep, applyStep_trace]
      rfl
    have hnc : ¬(n = c) := hne n hexec
    rw [hstep, applyStep_pending]
    rw [runnableB_iff] at hsat ⊢
    obtain ⟨hent, hports⟩ := hsat
    constructor
    · apply entryP_mono_distribute
      rw [entryP_aerase, if_neg hnc]
      exact hent
    · intro p hp
      apply portP_mono_distribute
      rw [portP_aerase, if_neg hnc]
      exact hports p hp

/-- Runnability persists from the step where it appears to any later step,
as long as the component itself never executes. -/
theorem runnable_through {g : Graph V} {data : Pending V} {comp : Comp V}
    {c : String} (k F : Nat) (hkF : k ≤ F)
    (hsat : runnableB (SRun g data k).pending comp c = true)
    (hnoc : ∀ m, ¬ExecAt g data m c) :
    runnableB (SRun g data F).pending comp c = true := by
  induction F, hkF using Nat.le_induction with
  | base => exact hsat
  | succ F hkF ih =>
    exact runnable_preserved ih (fun n hex heq => hnoc F (heq ▸ hex))

/-- Once stepping stops, the state sequence is constant. -/
theorem SRun_stable {g : Graph V} {data : Pending V} {F : Nat}
    (h : stepOnce g (SRun g data F) = none) :
    ∀ m, F ≤ m → SRun g data m = SRun g data F := by
  intro m hm
  induction m, hm using Nat.le_induction with
  | base => rfl
  | succ m hm ih =>
    show SRun g data (m + 1) = _
    unfold SRun
    rw [iter_back]
    have hso : stepOnce g (iter g m (initState data)) = none := by
      show stepOnce g (SRun g data m) = none
      rw [ih]; exact h
    rw [hso]
    exact ih

theorem not_runnable_of_select_none {g : Graph V} {pd : Pending V}
    (hsel : selectRunnable g pd = none) {c : String} {comp : Comp V}
    (hmem : (c, comp) ∈ g.components) : ¬ runnableB pd comp c = true := by
  have := List.find?_eq_none.mp hsel (c, comp) hmem
  simpa using this

/-- Fuel exhaustion means every iteration executed a component. -/
theorem loop_oof (g : Graph V) :
    ∀ (fuel : Nat) (st : RunState V),
      (loopFull fuel g [] st).1 = .outOfFuel →
      (iter g fuel st).trace.length = st.trace.length + fuel := by
  intro fuel
  induction fuel with
  | zero => intro st _; rfl
  | succ fuel ih =>
    intro st h
    rcases hsel : selectRunnable g st.pending with _ | ⟨n, c⟩
    · rw [loopFull_succ_none hsel] at h; simp at h
    · rcases hrun : c.run ((alookup st.pending n).getD []) with _ | outs
      · rw [loopFull_succ_err hsel (bpMatch_nil n _) hrun] at h; simp at h
      · rw [loopFull_succ_step hsel (bpMatch_nil n _) hrun] at h
        have hlen := ih _ h
        rw [iter_succ_some (stepOnce_step hsel hrun), hlen]
        have hl : (applyStep g n outs (bumpEvals st)).trace.length
            = st.trace.length + 1 := by
          rw [applyStep_trace]
          simp [bumpEvals]
        omega

/-- A completing breakpoint-free run ends with nothing runnable, and its
final state is the iterated step sequence. -/
theorem loop_completed_sel (g : Graph V) :
    ∀ (fuel : Nat) (st : RunState V) (out : Pending V),
      (loopFull fuel g [] st).1 = .completed out →
      selectRunnable g (iter g fuel st).pending = none ∧
      (loopFull fuel g [] st).2 = iter g fuel st := by
  intro fuel
  induction fuel with
  | zero => intro st out h; simp [loopFull] at h
  | succ fuel ih =>
    intro st out h
    rcases hsel : selectRunnable g st.pending with _ | ⟨n, c⟩
    · rw [loopFull_succ_none hsel]
      have hso : stepOnce g st = none := stepOnce_none hsel
      rw [iter_idle hso (fuel + 1)]
      exact ⟨hsel, rfl⟩
    · rcases hrun : c.run ((alookup st.pending n).getD []) with _ | outs
      · rw [loopFull_succ_err hsel (bpMatch_nil n _) hrun] at h; simp at h
      · rw [loopFull_succ_step hsel (bpMatch_nil n _) hrun] at h ⊢
        rw [iter_succ_some (stepOnce_step hsel hrun)]
        exact ih _ out h

/-- Every executed component is registered. -/
theorem trace_mem (g : Graph V) (data : Pending V) :
    ∀ (k : Nat) (x : String), x ∈ (SRun g data k).trace → x ∈ g.components.map Prod.fst := by
  intro k
  induction k with
  | zero => intro x hx; exact absurd hx (List.not_mem_nil x)
  | succ k ih =>
    intro x hx
    rcases SRun_cases g data k with hstall | ⟨n, c, outs, hsel, hrun, hstep⟩
    · rw [hstall] at hx; exact ih x hx
    · rw [hstep, applyStep_trace] at hx
      rcases List.mem_append.mp hx with h1 | h1
      · exact ih x h1
      · have hxn : x = n := by simpa using h1
        subst hxn
        exact List.mem_map.mpr ⟨(x, c), List.mem_of_find?_eq_some hsel, rfl⟩

theorem countTrace_cons (c x : String) (xs : List String) :
    countTrace c (x :: xs) = (if x = c then 1 else 0) + countTrace c xs := by
  by_cases h : x = c <;> simp [countTrace, List.filter_cons, h] <;> omega

theorem countTrace_pos_of_mem : ∀ {tr : List String} {x : String},
    x ∈ tr → 0 < countTrace x tr := by
  intro tr
  induction tr with
  | nil => intro x hx; exact absurd hx (List.not_mem_nil x)
  | cons a as ih =>
    intro x hx
    rw [countTrace_cons]
    rcases List.mem_cons.mp hx with h | h
    · rw [if_pos h.symm]; omega
    · have := ih h; omega

theorem nodup_of_counts : ∀ (tr : List String), (∀ c, countTrace c tr ≤ 1) → tr.Nodup := by
  intro tr
  induction tr with
  | nil => intro _; exact List.nodup_nil
  | cons x xs ih =>
    intro h
    rw [List.nodup_cons]
    constructor
    · intro hmem
      have h1 := h x
      rw [countTrace_cons, if_pos rfl] at h1
      have := countTrace_pos_of_mem hmem
      omega
    · refine ih (fun c => ?_)
      have hc := h c
      rw [countTrace_cons] at hc
      by_cases hxc : x = c
      · rw [if_pos hxc] at hc; omega
      · rw [if_neg hxc] at hc; omega

theorem length_le_of_nodup_subset (tr names : List String)
    (hnd : tr.Nodup) (hsub : ∀ x ∈ tr, x ∈ names) : tr.length ≤ names.length := by
  classical
  have h1 : tr.toFinset.card = tr.length := List.toFinset_card_of_nodup hnd
  have h2 : tr.toFinset ⊆ names.toFinset := by
    intro x hx
    rw [List.mem_toFinset] at hx ⊢
    exact hsub x hx
  have h3 := Finset.card_le_card h2
  have h4 : names.toFinset.card ≤ names.length := names.toFinset_card_le
  omega

/-- C7, amended: in an acyclic pipeline (witnessed by a topological name
order) with distinct component names where no component invocation raises,
every edge targets a declared required input port of a registered
component, each input port has at most one incoming edge, and the initial
inputs feed only unconnected ports, a breakpoint-free `run` with fuel one
more than the number of components terminates by completing, no component
executes more than once, and every registered component whose required
input ports all become satisfied at some point of the run executes exactly
once. -/
theorem acyclic_run_terminates_executes_once
    (g : Graph V) (data : Pending V) (ord : List String)
    (htopo : TopoOrdered g ord)
    (hnames : (g.components.map Prod.fst).Nodup)
    (htot : ∀ nc ∈ g.components, ∀ ins, ((nc : String × Comp V).2.run ins).isSome = true)
    (hreq : ∀ e ∈ g.edges, ∀ comp,
      ((e : (String × String) × (String × String)).2.1, comp) ∈ g.components →
      e.2.2 ∈ (comp : Comp V).required)
    (honeEdge : ∀ e1 ∈ g.edges, ∀ e2 ∈ g.edges,
      (e1 : (String × String) × (String × String)).2
        = (e2 : (String × String) × (String × String)).2 → e1 = e2)
    (hdata : ∀ e ∈ g.edges,
      portP data (e : (String × String) × (String × String)).2.1 e.2.2 = false) :
    (∃ out, (run g data [] none (g.components.length + 1)).1 = .completed out) ∧
    (∀ c, countTrace c (run g data [] none (g.components.length + 1)).2.trace ≤ 1) ∧
    (∀ c comp, (c, comp) ∈ g.components →
      (∃ k, runnableB (SRun g data k).pending comp c = true) →
      countTrace c (run g data [] none (g.components.length + 1)).2.trace = 1) := by
  set F := g.components.length + 1 with hF
  have hnd_exec : ∀ (c : String) (i j : Nat),
      i < j → ExecAt g data i c → ExecAt g data j c → False :=
    fun c => no_double_exec htopo hnames hreq honeEdge hdata (ord.indexOf c) c (Nat.le_refl _)
  have hcount_le : ∀ (c : String) (k : Nat), countTrace c (SRun g data k).trace ≤ 1 :=
    fun c k => count_le_one_of_no_double (hnd_exec c) k
  have htrace_len : ∀ k, (SRun g data k).trace.length ≤ g.components.length := by
    intro k
    have hnd : (SRun g data k).trace.Nodup := nodup_of_counts _ (fun c => hcount_le c k)
    have hlen := length_le_of_nodup_subset _ _ hnd (trace_mem g data k)
    simpa using hlen
  have hnotoof : (loopFull F g [] (initState data)).1 ≠ .outOfFuel := by
    intro h
    have hoof := loop_oof g F (initState data) h
    have hle : (iter g F (initState data)).trace.length ≤ g.components.length :=
      htrace_len F
    rw [hoof] at hle
    simp only [initState, List.length_nil] at hle
    omega
  have hnoterr : ∀ cn, (loopFull F g [] (initState data)).1 ≠ .componentError cn := by
    intro cn h
    obtain ⟨stF, c, heq, _, hmem2, hselE, hrunE⟩ :=
      loop_error_state g [] cn F (initState data) h
    have hsome := htot _ hmem2 ((alookup stF.pending cn).getD [])
    rw [hrunE] at hsome
    exact absurd hsome (by simp)
  have hnothalt := loop_no_halt g F (initState data)
  obtain ⟨out, hout⟩ : ∃ out, (loopFull F g [] (initState data)).1 = .completed out := by
    rcases hres : (loopFull F g [] (initState data)).1 with out | r | cn | _
    · exact ⟨out, rfl⟩
    · rw [hres] at hnothalt; simp [isHalt] at hnothalt
    · exact absurd hres (hnoterr cn)
    · exact absurd hres hnotoof
  obtain ⟨hselF, hst2⟩ := loop_completed_sel g F (initState data) out hout
  have hrun2 : (run g data [] none F).2 = SRun g data F := hst2
  refine ⟨⟨out, hout⟩, ?_, ?_⟩
  · intro c
    rw [hrun2]
    exact hcount_le c F
  · intro c comp hmem hsat
    obtain ⟨k, hsatk⟩ := hsat
    rw [hrun2]
    have hstepF : stepOnce g (SRun g data F) = none := stepOnce_none hselF
    have hstable := SRun_stable hstepF
    by_cases hc0 : countTrace c (SRun g data F).trace = 0
    · exfalso
      have hnoc : ∀ m, ¬ ExecAt g data m c := by
        intro m hex
        by_cases hmF : m + 1 ≤ F
        · have h1 := execAt_count hex
          have h2 := count_mono g data c (m + 1) F hmF
          have h3 := count_mono g data c m (m + 1) (Nat.le_succ m)
          omega
        · have e1 : SRun g data m = SRun g data F := hstable m (by omega)
          have e2 : SRun g data (m + 1) = SRun g data F := hstable (m + 1) (by omega)
          unfold ExecAt at hex
          rw [e1, e2] at hex
          exact absurd (congrArg List.length hex) (by simp)
      have hsatF : runnableB (SRun g data F).pending comp c = true := by
        by_cases hkF : k ≤ F
        · exact runnable_through k F hkF hsatk hnoc
        · have hk : SRun g data k = SRun g data F := hstable k (by omega)
          rw [hk] at hsatk
          exact hsatk
      exact not_runnable_of_select_none hselF hmem hsatF
    · have := hcount_le c F
      omega

/-- C7, counterexample: `refeedGraph` is acyclic (witnessed by the order
src, dup), has no breakpoints, and its run terminates, yet component dup —
whose required input ports are satisfied from the start — executes twice,
because the initial inputs feed its connected port and src refeeds it.
This refutes the claim that every satisfied component executes exactly
once. -/
theorem acyclic_exactly_once_counterexample :
    TopoOrdered refeedGraph ["src", "dup"] ∧
    runnableB refeedData dupComp "dup" = true ∧
    (run refeedGraph refeedData [] none 10).1
      = .completed [("dup", [("o", 1)]), ("dup", [("o", 1)])] ∧
    (run refeedGraph refeedData [] none 10).2.trace = ["dup", "src", "dup"] ∧
    countTrace "dup" (run refeedGraph refeedData [] none 10).2.trace = 2 :=
  ⟨by decide, rfl, rfl, rfl, rfl⟩

theorem acyclic_run_terminates_executes_once_witness :
    (∃ out, (run chainGraph chainData [] none 3).1 = .completed out) ∧
    (∀ c, countTrace c (run chainGraph chainData [] none 3).2.trace ≤ 1) ∧
    (∀ c comp, (c, comp) ∈ chainGraph.components →
      (∃ k, runnableB (SRun chainGraph chainData k).pending comp c = true) →
      countTrace c (run chainGraph chainData [] none 3).2.trace = 1) := by
  have h := acyclic_run_terminates_executes_once chainGraph chainData ["A", "B"]
    (by decide)
    (by decide)
    (by intro nc hnc ins; fin_cases hnc <;> rfl)
    (by
      intro e he comp hcomp
      fin_cases he
      rw [show chainGraph.components = [("A", chainA), ("B", chainB)] from rfl,
        List.mem_cons, List.mem_singleton] at hcomp
      rcases hcomp with h1 | h1
      · have hfst : ("B" : String) = "A" := congrArg Prod.fst h1
        exact absurd hfst (by decide)
      · have hc : comp = chainB := congrArg Prod.snd h1
        subst hc
        decide)
    (by intro e1 h1 e2 h2 _; fin_cases h1 <;> fin_cases h2 <;> rfl)
    (by intro e he; fin_cases he <;> rfl)
  exact h

end PipelineModel

namespace KeywordExtraction

/-- A JSON value, as produced by Python's `json.loads` (objects are
represented with their keys unique, as a Python dict is). -/
inductive Json where
  | null
  | bool (b : Bool)
  | num (n : Int)
  | str (s : String)
  | arr (xs : List Json)
  | obj (fields : List (String × Json))

/-- An exception kind the parse-and-display cell can meet:
`json.JSONDecodeError` from `json.loads`, `KeyError` from a missing dict
key, `TypeError` from subscripting or iterating a value of the wrong
type. -/
inductive PyErr where
  | keyError (k : String)
  | typeError
  | jsonDecodeError (msg : String)
  deriving DecidableEq, Repr

/-- One unit of printed output of the cell: the three-line
keyword/positions/score block for one entry, or the failure notice carrying
the raw model output. -/
inductive Line where
  | keywordLine (keyword positions score : Json)
  | failureLine (raw : String)

/-- Outcome of the cell: everything printed, or the lines printed before an
uncaught exception propagated. -/
inductive PyOutcome where
  | printed (lines : List Line)
  | raised (printedSoFar : List Line) (e : PyErr)

/-- Embeds the loop body of `src/notebooks/keyword-extraction.ipynb`
(cell 13): `kw["keyword"]`, `kw["positions"]`, `kw["score"]` evaluated in
that order; a missing key raises `KeyError`, and subscripting a non-dict
value raises `TypeError`. -/
def processKw (kw : Json) : Except PyErr Line :=
  match kw with
  | .obj fs =>
    match PipelineModel.alookup fs "keyword" with
    | none => .error (.keyError "keyword")
    | some kv =>
      match PipelineModel.alookup fs "positions" with
      | none => .error (.keyError "positions")
      | some pv =>
        match PipelineModel.alookup fs "score" with
        | none => .error (.keyError "score")
        | some sv => .ok (.keywordLine kv pv sv)
  | _ => .error .typeError

/-- Runs the `for kw in data["keywords"]` loop over a list of entries,
keeping the lines printed before any uncaught exception. -/
def iterKws : List Json → PyOutcome
  | [] => .printed []
  | kw :: rest =>
    match processKw kw with
    | .error e => .raised [] e
    | .ok line =>
      match iterKws rest with
      | .printed ls => .printed (line :: ls)
      | .raised ls e => .raised (line :: ls) e

/-- Embeds the try/except of `src/notebooks/keyword-extraction.ipynb`
(cell 13).  `parsed` is the outcome of `json.loads(output_str)` on the raw
reply (`Except.error` for a `json.JSONDecodeError`; `json.loads` itself is
the Python standard library, external to the repository).  A decode error
is caught and the failure notice printed with the raw output; on a parsed
value the cell subscripts `data["keywords"]` (KeyError on a dict without
the key, TypeError on a non-dict), then iterates it (iterating a string or
a dict yields strings, so a non-empty one raises TypeError at the first
entry, and an empty one prints nothing). -/
def parseAndDisplay (raw : String) (parsed : Except String Json) : PyOutcome :=
  match parsed with
  | .error _ => .printed [.failureLine raw]
  | .ok (.obj fields) =>
    match PipelineModel.alookup fields "keywords" with
    | none => .raised [] (.keyError "keywords")
    | some (.arr kws) => iterKws kws
    | some (.str s) => if s.isEmpty then .printed [] else .raised [] .typeError
    | some (.obj fs) => if fs.isEmpty then .printed [] else .raised [] .typeError
    | some _ => .raised [] .typeError
  | .ok _ => .raised [] .typeError

/-- Whether the outcome is an uncaught `json.JSONDecodeError`. -/
def escapesDecodeError : PyOutcome → Bool
  | .raised _ (.jsonDecodeError _) => true
  | _ => false

/-- Whether the outcome is ordinary printed output. -/
def isPrinted : PyOutcome → Bool
  | .printed _ => true
  | _ => false

/-- C8, counterexample: `"null"` is a valid JSON reply, but the
parse-and-display step does not print keywords for it: subscripting `None`
raises an uncaught `TypeError`.  This refutes the claim that every valid
JSON reply has its keywords printed. -/
theorem parse_display_counterexample :
    parseAndDisplay "null" (.ok .null) = .raised [] .typeError ∧
    isPrinted (parseAndDisplay "null" (.ok .null)) = false := by
  exact ⟨rfl, rfl⟩

/-- The loop body never raises a JSON decode error. -/
theorem processKw_not_decode (kw : Json) (m : String) :
    processKw kw ≠ .error (.jsonDecodeError m) := by
  cases kw with
  | obj fs =>
    simp only [processKw]
    rcases PipelineModel.alookup fs "keyword" with _ | kv
    · simp
    · rcases PipelineModel.alookup fs "positions" with _ | pv
      · simp
      · rcases PipelineModel.alookup fs "score" with _ | sv <;> simp
  | null => simp [processKw]
  | bool b => simp [processKw]
  | num n => simp [processKw]
  | str s => simp [processKw]
  | arr xs => simp [processKw]

/-- The keyword loop never raises a JSON decode error. -/
theorem iterKws_not_decode (kws : List Json) :
    escapesDecodeError (iterKws kws) = false := by
  induction kws with
  | nil => rfl
  | cons kw rest ih =>
    simp only [iterKws]
    rcases hp : processKw kw with e | line
    · cases e with
      | jsonDecodeError m => exact absurd hp (processKw_not_decode kw m)
      | keyError k => rfl
      | typeError => rfl
    · rcases h : iterKws rest with ls | ⟨ls, e⟩
      · rfl
      · rw [h] at ih
        cases e with
        | jsonDecodeError m => simp [escapesDecodeError] at ih
        | keyError k => rfl
        | typeError => rfl

/-- On an array of well-formed entries the loop prints one keyword block
per entry. -/
theorem iterKws_all_ok (kws : List Json) (hok : ∀ kw ∈ kws, (processKw kw).isOk) :
    ∃ ls, iterKws kws = .printed ls ∧ ls.length = kws.length := by
  induction kws with
  | nil => exact ⟨[], rfl, rfl⟩
  | cons kw rest ih =>
    have h1 : (processKw kw).isOk := hok kw (List.mem_cons_self kw rest)
    obtain ⟨line, hline⟩ : ∃ line, processKw kw = .ok line := by
      rcases h : processKw kw with e | line
      · rw [h] at h1; simp [Except.isOk, Except.toBool] at h1
      · exact ⟨line, rfl⟩
    obtain ⟨ls, hls, hlen⟩ := ih (fun kw' h' => hok kw' (List.mem_cons_of_mem kw h'))
    refine ⟨line :: ls, ?_, by simp [hlen]⟩
    simp only [iterKws, hline, hls]

/-- C8, amended: the step never lets a `json.JSONDecodeError` escape: a
decode failure is caught and the failure notice printed with the raw
output.  A valid JSON reply has its keywords printed only when it is an
object whose `keywords` member is an array of objects each carrying the
`keyword`, `positions` and `score` keys; then one keyword block is printed
per entry.  Other valid-JSON shapes raise uncaught `KeyError`/`TypeError`
exceptions instead. -/
theorem parse_display_amended (raw : String) (parsed : Except String Json) :
    escapesDecodeError (parseAndDisplay raw parsed) = false ∧
    (∀ m, parsed = .error m → parseAndDisplay raw parsed = .printed [.failureLine raw]) ∧
    (∀ kws, parsed = .ok (.obj [("keywords", .arr kws)]) →
      (∀ kw ∈ kws, (processKw kw).isOk) →
      ∃ ls, parseAndDisplay raw parsed = .printed ls ∧ ls.length = kws.length) := by
  refine ⟨?_, ?_, ?_⟩
  · rcases parsed with m | j
    · rfl
    · cases j with
      | null => rfl
      | bool b => rfl
      | num n => rfl
      | str s => rfl
      | arr xs => rfl
      | obj fields =>
        simp only [parseAndDisplay]
        cases hv : PipelineModel.alookup fields "keywords" with
        | none => rfl
        | some v =>
          cases v with
          | null => rfl
          | bool b => rfl
          | num n => rfl
          | str s => by_cases h : s.isEmpty <;> simp [h, escapesDecodeError]
          | obj fs => by_cases h : fs.isEmpty <;> simp [h, escapesDecodeError]
          | arr kws => exact iterKws_not_decode kws
  · intro m hm; subst hm; rfl
  · intro kws hp hok
    subst hp
    have hshape : parseAndDisplay raw (.ok (.obj [("keywords", .arr kws)])) = iterKws kws := by
      simp [parseAndDisplay, PipelineModel.alookup]
    rw [hshape]
    exact iterKws_all_ok kws hok

/-- A well-formed keyword entry used to instantiate `parse_display_amended`. -/
def sampleKw : Json :=
  .obj [("keyword", .str "artificial intelligence"), ("positions", .arr [.num 0]), ("score", .num 1)]

theorem parse_display_amended_witness :
    ∃ ls,
      parseAndDisplay "raw reply" (.ok (.obj [("keywords", .arr [sampleKw])])) = .printed ls ∧
      ls.length = 1 :=
  (parse_display_amended "raw reply" (.ok (.obj [("keywords", .arr [sampleKw])]))).2.2
    [sampleKw] rfl
    (by intro kw h
        simp only [List.mem_singleton] at h
        subst h
        rfl)

